import Mathlib

/-!
Shallow embedding of the `rusty-feat` finite-collection combinator algebra
(src/src/finite.rs). The Rust library is a trait `Finite` with `len` and
`index`, implemented by the primitives `Empty`, `Singleton`, `Lazy`,
`Natural` and the combinators `Union`, `Map`, `Product`, plus a sequential
iterator `Iter`. We model the algebra as an inductive family and the two
loud failure modes of `index` (an explicit `panic!` and Rust's
division-by-zero panic on `usize`) as an `Except` error.
-/

namespace RustyFeat

/-- The two panic modes the Rust code can hit inside `index`:
an explicit `panic!` on an out-of-range index, and the implicit
division-by-zero panic of `usize` division in `Product::index`. -/
inductive Panic where
  | outOfRange
  | divByZero
deriving DecidableEq

/-- Deep embedding of the collection expression trees one can build from
the library: `Empty<T>`, `Singleton<T>` (struct `Singleton`), `Lazy<F>`
(a deferred producer), `Natural(n)` (the range 0..n), and the combinators
`Union`, `Map`, `Product` from src/src/finite.rs. -/
inductive Finite : Type → Type 1 where
  | empty : (T : Type) → Finite T
  | singleton : {T : Type} → T → Finite T
  | lazy : {T : Type} → (Unit → T) → Finite T
  | natural : Nat → Finite Nat
  | union : {T : Type} → Finite T → Finite T → Finite T
  | map : {A B : Type} → Finite A → (A → B) → Finite B
  | product : {A B : Type} → Finite A → Finite B → Finite (A × B)

/-- The `len` method of each `Finite` impl in src/src/finite.rs:
0 for `Empty`, 1 for `Singleton` and `Lazy`, `n` for `Natural(n)`,
sum for `Union`, child length for `Map`, product for `Product`. -/
def Finite.len : {T : Type} → Finite T → Nat
  | _, .empty _ => 0
  | _, .singleton _ => 1
  | _, .lazy _ => 1
  | _, .natural n => n
  | _, .union a b => a.len + b.len
  | _, .map a _ => a.len
  | _, .product a b => a.len * b.len

/-- The `index` method of each `Finite` impl in src/src/finite.rs.
`Empty` always panics; `Singleton` and `Lazy` panic off index 0;
`Natural` returns the index unchecked; `Union` branches on the left
length; `Map` applies the function to the child's element; `Product`
computes `q = i / right.len()` and `r = i % right.len()` — in Rust this
division panics when `right.len() = 0`, which we surface as
`Panic.divByZero` — and pairs the children's elements. -/
def Finite.index : {T : Type} → Finite T → Nat → Except Panic T
  | _, .empty _, _ => .error .outOfRange
  | _, .singleton t, 0 => .ok t
  | _, .singleton _, _ + 1 => .error .outOfRange
  | _, .lazy f, 0 => .ok (f ())
  | _, .lazy _, _ + 1 => .error .outOfRange
  | _, .natural _, i => .ok i
  | _, .union a b, i =>
      if i < a.len then a.index i else b.index (i - a.len)
  | _, .map a f, i => (a.index i).map f
  | _, .product a b, i =>
      if b.len = 0 then .error .divByZero
      else do
        let x ← a.index (i / b.len)
        let y ← b.index (i % b.len)
        pure (x, y)

/-- The iterator adaptor `Iter` of src/src/finite.rs: a collection
together with a cursor. -/
structure Iter (T : Type) : Type 1 where
  finite : Finite T
  index : Nat

/-- The `iter` method of the `Finite` trait: cursor starts at 0. -/
def Finite.iter {T : Type} (c : Finite T) : Iter T :=
  { finite := c, index := 0 }

/-- The `next` method of `Iterator for Iter`: if the cursor is below the
length, advance it and return the element at the old cursor (whose
computation can panic, surfaced through `Except`); otherwise signal
exhaustion with `none` and leave the state unchanged. -/
def Iter.next {T : Type} (it : Iter T) : Except Panic (Option T) × Iter T :=
  if it.index < it.finite.len then
    ((it.finite.index it.index).map some, { it with index := it.index + 1 })
  else
    (.ok none, it)

/-- The `size_hint` method of `Iterator for Iter`: both bounds are
`len - index` (natural subtraction, as `usize` subtraction never
underflows on reachable states). -/
def Iter.size_hint {T : Type} (it : Iter T) : Nat × Option Nat :=
  (it.finite.len - it.index, some (it.finite.len - it.index))

/-- Drive `next` repeatedly (with fuel) collecting the yielded elements
until the iterator signals exhaustion, propagating any panic. -/
def Iter.collect {T : Type} : Nat → Iter T → Except Panic (List T)
  | 0, _ => .ok []
  | fuel + 1, it =>
      match it.next with
      | (.ok (some v), it') => (Iter.collect fuel it').map (fun l => v :: l)
      | (.ok none, _) => .ok []
      | (.error e, _) => .error e

/-- The iterator state after `n` calls to `next`. -/
def Iter.afterN {T : Type} (it : Iter T) : Nat → Iter T
  | 0 => it
  | n + 1 => (it.afterN n).next.2

theorem except_map_ok {ε α β : Type} (f : α → β) (x : α) :
    Except.map f (Except.ok (ε := ε) x) = Except.ok (f x) := rfl

theorem except_ok_bind {ε α β : Type} (x : α) (f : α → Except ε β) :
    (Except.ok (ε := ε) x >>= f) = f x := rfl

/-- An in-range index never panics: every collection of the algebra
returns an element for indices below its length. -/
theorem Finite.index_ok : {T : Type} → (c : Finite T) → (i : Nat) →
    i < c.len → ∃ v, c.index i = .ok v
  | _, .empty _, _, h => absurd h (by simp [Finite.len])
  | _, .singleton t, 0, _ => ⟨t, rfl⟩
  | _, .singleton _, _ + 1, h => by simp [Finite.len] at h
  | _, .lazy f, 0, _ => ⟨f (), rfl⟩
  | _, .lazy _, _ + 1, h => by simp [Finite.len] at h
  | _, .natural _, i, _ => ⟨i, rfl⟩
  | _, .union a b, i, h => by
      simp only [Finite.index]
      by_cases hi : i < a.len
      · simpa [hi] using a.index_ok i hi
      · have hlt : i - a.len < b.len := by
          simp only [Finite.len] at h; omega
        simpa [hi] using b.index_ok _ hlt
  | _, .map a f, i, h => by
      obtain ⟨x, hx⟩ := a.index_ok i (by simpa [Finite.len] using h)
      exact ⟨f x, by simp [Finite.index, hx, except_map_ok]⟩
  | _, .product a b, i, h => by
      have hb : b.len ≠ 0 := by
        intro h0
        simp [Finite.len, h0] at h
      have hq : i / b.len < a.len :=
        Nat.div_lt_of_lt_mul (by simpa [Finite.len, Nat.mul_comm] using h)
      have hr : i % b.len < b.len := Nat.mod_lt _ (Nat.pos_of_ne_zero hb)
      obtain ⟨x, hx⟩ := a.index_ok _ hq
      obtain ⟨y, hy⟩ := b.index_ok _ hr
      refine ⟨(x, y), ?_⟩
      simp [Finite.index, hb, hx, hy, except_ok_bind]

/-- Running the iterator from cursor `i ≤ len` with enough fuel collects
exactly the elements at positions `i, i+1, …, len-1`, in order. -/
theorem Iter.collect_spec {T : Type} (c : Finite T) (fuel : Nat) :
    ∀ i, c.len ≤ i + fuel → i ≤ c.len →
      ∃ l : List T, Iter.collect fuel ⟨c, i⟩ = .ok l ∧
        l.length = c.len - i ∧
        ∀ k, k < c.len - i → l[k]? = (c.index (i + k)).toOption := by
  induction fuel with
  | zero =>
      intro i hf hi
      refine ⟨[], rfl, by simp only [List.length_nil]; omega, ?_⟩
      intro k hk
      omega
  | succ fuel ih =>
      intro i hf hi
      by_cases hlt : i < c.len
      · obtain ⟨v, hv⟩ := Finite.index_ok c i hlt
        have hnext : (Iter.next ⟨c, i⟩) = (.ok (some v), ⟨c, i + 1⟩) := by
          simp [Iter.next, hlt, hv, except_map_ok]
        obtain ⟨l, hl, hlen, hidx⟩ := ih (i + 1) (by omega) (by omega)
        refine ⟨v :: l, ?_, by simp only [List.length_cons, hlen]; omega, ?_⟩
        · simp [Iter.collect, hnext, hl, except_map_ok]
        · intro k hk
          cases k with
          | zero => simp [hv, Except.toOption]
          | succ k =>
              have h2 := hidx k (by omega)
              have h3 : i + (k + 1) = i + 1 + k := by omega
              rw [h3]
              simpa using h2
      · have hnext : (Iter.next ⟨c, i⟩) = (.ok none, ⟨c, i⟩) := by
          simp [Iter.next, hlt]
        refine ⟨[], ?_, by simp only [List.length_nil]; omega, ?_⟩
        · simp [Iter.collect, hnext]
        · intro k hk
          omega

/-- The state reached after `n` calls to `next` from a fresh iterator has
cursor `min n len` over the same collection. -/
theorem Iter.afterN_iter {T : Type} (c : Finite T) (n : Nat) :
    c.iter.afterN n = ⟨c, min n c.len⟩ := by
  induction n with
  | zero => simp [Iter.afterN, Finite.iter]
  | succ n ih =>
      show (c.iter.afterN n).next.2 = _
      rw [ih]
      by_cases h : min n c.len < c.len
      · simp only [Iter.next, h, if_pos]
        congr 1
        omega
      · simp only [Iter.next, h, if_neg, not_false_iff]
        congr 1
        omega

/-- Claim C1: for every finite collection, the iterator obtained from
`iter` yields exactly `len` elements (collected with fuel `len + 1`),
the k-th yielded element is `index k` (which succeeds for every
`k < len`), the call after the last element signals exhaustion, and at
every reachable state the cursor is `min n len` and the exact-size hint
is `len` minus the cursor. -/
theorem C1_iterate_yields_all {T : Type} (c : Finite T) :
    (∃ l : List T, Iter.collect (c.len + 1) c.iter = .ok l ∧
       l.length = c.len ∧
       ∀ k, k < c.len → l[k]? = (c.index k).toOption ∧ ∃ v, c.index k = .ok v) ∧
    (c.iter.afterN c.len).next.1 = .ok none ∧
    (∀ n : Nat, (c.iter.afterN n).index = min n c.len ∧
       (c.iter.afterN n).size_hint =
         (c.len - (c.iter.afterN n).index, some (c.len - (c.iter.afterN n).index))) := by
  refine ⟨?_, ?_, ?_⟩
  · obtain ⟨l, hl, hlen, hidx⟩ := Iter.collect_spec c (c.len + 1) 0 (by omega) (by omega)
    refine ⟨l, hl, by simpa using hlen, ?_⟩
    intro k hk
    exact ⟨by simpa using hidx k (by omega), Finite.index_ok c k hk⟩
  · rw [Iter.afterN_iter]
    simp [Iter.next, Nat.min_self]
  · intro n
    rw [Iter.afterN_iter]
    exact ⟨rfl, rfl⟩

/-- Witness for C1 at the concrete collection `Natural 2`. -/
theorem C1_iterate_yields_all_witness :
    ∃ l : List Nat, Iter.collect 3 (Finite.natural 2).iter = .ok l ∧
      l.length = 2 ∧
      (l[1]? = ((Finite.natural 2).index 1).toOption ∧
        ∃ v, (Finite.natural 2).index 1 = .ok v) := by
  obtain ⟨⟨l, h1, h2, h3⟩, -, -⟩ := C1_iterate_yields_all (Finite.natural 2)
  exact ⟨l, h1, h2, h3 1 (by decide)⟩

/-- Claim C2, counterexample: `Natural 3` (the range 0..3) silently
accepts the out-of-range index 5 and returns it, so `index` does not
signal OutOfRange for every out-of-range index. -/
theorem C2_counterexample :
    (Finite.natural 3).index 5 = .ok 5 ∧ ¬ 5 < (Finite.natural 3).len :=
  ⟨rfl, by decide⟩

/-- Claim C2, amended: an in-range index never signals an error; `Empty`,
`Singleton` and the deferred `Lazy` primitive signal OutOfRange for every
out-of-range index; but `Natural` performs no range check and returns any
index unchanged, so out-of-range access through it is silently accepted. -/
theorem C2_range_check_amended :
    (∀ (T : Type) (c : Finite T) (i : Nat), i < c.len → ∃ v, c.index i = .ok v) ∧
    (∀ (T : Type) (i : Nat), (Finite.empty T).index i = .error .outOfRange) ∧
    (∀ (T : Type) (v : T) (i : Nat), 0 < i →
       (Finite.singleton v).index i = .error .outOfRange) ∧
    (∀ (T : Type) (f : Unit → T) (i : Nat), 0 < i →
       (Finite.lazy f).index i = .error .outOfRange) ∧
    (∀ n i : Nat, n ≤ i → (Finite.natural n).index i = .ok i) := by
  refine ⟨fun T c i h => Finite.index_ok c i h, fun T i => rfl, ?_, ?_, fun n i _ => rfl⟩
  · intro T v i hi
    match i, hi with
    | i + 1, _ => rfl
  · intro T f i hi
    match i, hi with
    | i + 1, _ => rfl

/-- Witness for the amended C2 at concrete inputs. -/
theorem C2_range_check_amended_witness :
    (∃ v, (Finite.natural 3).index 2 = .ok v) ∧
    (Finite.singleton (7 : Nat)).index 4 = .error .outOfRange ∧
    (Finite.lazy (fun _ => (0 : Nat))).index 2 = .error .outOfRange ∧
    (Finite.natural 3).index 5 = .ok 5 := by
  obtain ⟨h1, h2, h3, h4, h5⟩ := C2_range_check_amended
  exact ⟨h1 Nat (Finite.natural 3) 2 (by decide), h3 Nat 7 4 (by decide),
    h4 Nat (fun _ => (0 : Nat)) 2 (by decide), h5 3 5 (by decide)⟩

/-- Claim C3: the product's length is the product of the children's
lengths, an in-range index is split as quotient and remainder by the
right length and resolved in each child, and concretely
`Natural 3 × Natural 5` has length 15 with element `(1, 2)` at index 7. -/
theorem C3_product_spec :
    (∀ (A B : Type) (a : Finite A) (b : Finite B),
       (Finite.product a b).len = a.len * b.len) ∧
    (∀ (A B : Type) (a : Finite A) (b : Finite B) (i : Nat), i < a.len * b.len →
       ∃ x y, a.index (i / b.len) = .ok x ∧ b.index (i % b.len) = .ok y ∧
         (Finite.product a b).index i = .ok (x, y)) ∧
    ((Finite.product (Finite.natural 3) (Finite.natural 5)).len = 15 ∧
     (Finite.product (Finite.natural 3) (Finite.natural 5)).index 7 = .ok (1, 2)) := by
  refine ⟨fun A B a b => rfl, ?_, rfl, rfl⟩
  intro A B a b i h
  have hb : b.len ≠ 0 := by
    intro h0
    simp [h0] at h
  have hq : i / b.len < a.len := Nat.div_lt_of_lt_mul (by simpa [Nat.mul_comm] using h)
  have hr : i % b.len < b.len := Nat.mod_lt _ (Nat.pos_of_ne_zero hb)
  obtain ⟨x, hx⟩ := a.index_ok _ hq
  obtain ⟨y, hy⟩ := b.index_ok _ hr
  exact ⟨x, y, hx, hy, by simp [Finite.index, hb, hx, hy, except_ok_bind]⟩

/-- Witness for C3 at `Natural 3 × Natural 5`, index 7. -/
theorem C3_product_spec_witness :
    ∃ x y, (Finite.natural 3).index 1 = .ok x ∧ (Finite.natural 5).index 2 = .ok y ∧
      (Finite.product (Finite.natural 3) (Finite.natural 5)).index 7 = .ok (x, y) :=
  C3_product_spec.2.1 Nat Nat (Finite.natural 3) (Finite.natural 5) 7 (by decide)

/-- Claim C4: the union's length is the sum of the children's lengths,
indices below the left length are resolved in the left child, and the
rest are resolved in the right child at the shifted position. -/
theorem C4_union_spec :
    (∀ (T : Type) (a b : Finite T), (Finite.union a b).len = a.len + b.len) ∧
    (∀ (T : Type) (a b : Finite T) (i : Nat), i < a.len →
       (Finite.union a b).index i = a.index i) ∧
    (∀ (T : Type) (a b : Finite T) (i : Nat), a.len ≤ i →
       (Finite.union a b).index i = b.index (i - a.len)) := by
  refine ⟨fun T a b => rfl, ?_, ?_⟩
  · intro T a b i h
    simp [Finite.index, h]
  · intro T a b i h
    simp [Finite.index, Nat.not_lt.mpr h]

/-- Witness for C4 at `Natural 5 ∪ Natural 3`, indices 2 and 6. -/
theorem C4_union_spec_witness :
    (Finite.union (Finite.natural 5) (Finite.natural 3)).index 2 =
      (Finite.natural 5).index 2 ∧
    (Finite.union (Finite.natural 5) (Finite.natural 3)).index 6 =
      (Finite.natural 3).index 1 :=
  ⟨C4_union_spec.2.1 Nat (Finite.natural 5) (Finite.natural 3) 2 (by decide),
   C4_union_spec.2.2 Nat (Finite.natural 5) (Finite.natural 3) 6 (by decide)⟩

/-- Claim C5: mapping preserves length, and the element at an in-range
index is the function applied to the child's element there. -/
theorem C5_map_spec :
    (∀ (A B : Type) (a : Finite A) (f : A → B), (Finite.map a f).len = a.len) ∧
    (∀ (A B : Type) (a : Finite A) (f : A → B) (i : Nat), i < a.len →
       ∃ x, a.index i = .ok x ∧ (Finite.map a f).index i = .ok (f x)) := by
  refine ⟨fun A B a f => rfl, ?_⟩
  intro A B a f i h
  obtain ⟨x, hx⟩ := a.index_ok i h
  exact ⟨x, hx, by simp [Finite.index, hx, except_map_ok]⟩

/-- Witness for C5 at `Natural 3` mapped by `fun n => n + 10`, index 2. -/
theorem C5_map_spec_witness :
    ∃ x, (Finite.natural 3).index 2 = .ok x ∧
      (Finite.map (Finite.natural 3) (fun n => n + 10)).index 2 = .ok (x + 10) :=
  C5_map_spec.2 Nat Nat (Finite.natural 3) (fun n => n + 10) 2 (by decide)

/-- Claim C6, counterexample: the element of
`Natural 5 ∪ Natural 3` at index 5 is 0 (the 0th element of the right
range), not 2 as the claim states. -/
theorem C6_counterexample :
    (Finite.union (Finite.natural 5) (Finite.natural 3)).index 5 ≠ Except.ok 2 ∧
    (Finite.union (Finite.natural 5) (Finite.natural 3)).index 5 = Except.ok 0 := by
  refine ⟨?_, rfl⟩
  intro h
  have h0 : (Except.ok 0 : Except Panic Nat) = Except.ok 2 := h
  injection h0 with h2
  omega

/-- Claim C6, amended: `Range(5).unionWith(Range(3))` has length 8 and
its element at index 5 is 0, the 0th element of the right side. -/
theorem C6_union_scenario_amended :
    (Finite.union (Finite.natural 5) (Finite.natural 3)).len = 8 ∧
    (Finite.union (Finite.natural 5) (Finite.natural 3)).index 5 = Except.ok 0 :=
  ⟨rfl, rfl⟩

/-- Claim C7: on a valid call (index below the product's length) the
right child's length, the divisor of the quotient/remainder split, is
strictly positive, and the call succeeds without hitting the
division-by-zero panic. -/
theorem C7_product_divisor_pos :
    ∀ (A B : Type) (a : Finite A) (b : Finite B) (i : Nat),
      i < (Finite.product a b).len →
        0 < b.len ∧ ∃ v, (Finite.product a b).index i = .ok v := by
  intro A B a b i h
  have hb : 0 < b.len := by
    rcases Nat.eq_zero_or_pos b.len with h0 | h0
    · rw [show (Finite.product a b).len = a.len * b.len from rfl, h0] at h
      omega
    · exact h0
  exact ⟨hb, Finite.index_ok _ i h⟩

/-- Witness for C7 at `Natural 3 × Natural 5`, index 7. -/
theorem C7_product_divisor_pos_witness :
    0 < (Finite.natural 5).len ∧
      ∃ v, (Finite.product (Finite.natural 3) (Finite.natural 5)).index 7 = .ok v :=
  C7_product_divisor_pos Nat Nat (Finite.natural 3) (Finite.natural 5) 7 (by decide)

/-- Claim C8: `Empty` has length 0 and every access signals OutOfRange;
`Singleton v` has length 1, yields `v` at index 0 and signals OutOfRange
at every other index. -/
theorem C8_empty_singleton_spec :
    (∀ T : Type, (Finite.empty T).len = 0) ∧
    (∀ (T : Type) (i : Nat), (Finite.empty T).index i = .error .outOfRange) ∧
    (∀ (T : Type) (v : T), (Finite.singleton v).len = 1 ∧
       (Finite.singleton v).index 0 = .ok v) ∧
    (∀ (T : Type) (v : T) (i : Nat), i ≠ 0 →
       (Finite.singleton v).index i = .error .outOfRange) := by
  refine ⟨fun T => rfl, fun T i => rfl, fun T v => ⟨rfl, rfl⟩, ?_⟩
  intro T v i hi
  match i, hi with
  | i + 1, _ => rfl

/-- Witness for C8 at `Singleton 7`, index 3. -/
theorem C8_empty_singleton_spec_witness :
    (Finite.singleton (7 : Nat)).index 3 = .error .outOfRange :=
  C8_empty_singleton_spec.2.2.2 Nat 7 3 (by decide)

/-- Claim C9: the cursor invariant `index ≤ len` holds at a fresh
iterator (where the cursor is 0), is preserved by `next` (which keeps
the collection unchanged), makes the size-hint subtraction exact over
the integers (no underflow), and once the cursor has reached the length
`next` returns the exhausted signal and leaves the state unchanged, so
every later call is also exhausted; `next` only evaluates `index` at a
cursor strictly below the length. -/
theorem C9_cursor_invariant :
    (∀ (T : Type) (c : Finite T), c.iter.index = 0 ∧ c.iter.index ≤ c.iter.finite.len) ∧
    (∀ (T : Type) (it : Iter T), it.index ≤ it.finite.len →
       it.next.2.finite = it.finite ∧ it.next.2.index ≤ it.next.2.finite.len) ∧
    (∀ (T : Type) (it : Iter T), it.index ≤ it.finite.len →
       (it.finite.len : Int) - (it.index : Int) = (it.size_hint.1 : Int)) ∧
    (∀ (T : Type) (it : Iter T), it.finite.len ≤ it.index →
       it.next = (.ok none, it)) ∧
    (∀ (T : Type) (it : Iter T) (n : Nat), it.finite.len ≤ it.index →
       (it.afterN n).next.1 = .ok none) := by
  have hstay : ∀ (T : Type) (it : Iter T), it.finite.len ≤ it.index →
      it.next = (.ok none, it) := by
    intro T it h
    simp [Iter.next, Nat.not_lt.mpr h]
  refine ⟨fun T c => ⟨rfl, Nat.zero_le _⟩, ?_, ?_, hstay, ?_⟩
  · intro T it h
    by_cases hlt : it.index < it.finite.len
    · simp only [Iter.next, if_pos hlt]
      exact ⟨by trivial, by omega⟩
    · simp only [Iter.next, if_neg hlt]
      exact ⟨by trivial, h⟩
  · intro T it h
    have : it.size_hint.1 = it.finite.len - it.index := rfl
    rw [this]
    omega
  · intro T it n h
    have hfix : it.afterN n = it := by
      induction n with
      | zero => rfl
      | succ n ih =>
          show (it.afterN n).next.2 = it
          rw [ih, hstay T it h]
    rw [hfix, hstay T it h]

/-- Witness for C9 at concrete iterator states over `Natural 2`. -/
theorem C9_cursor_invariant_witness :
    ((⟨Finite.natural 2, 1⟩ : Iter Nat).next.2.finite = Finite.natural 2 ∧
     (⟨Finite.natural 2, 1⟩ : Iter Nat).next.2.index ≤
       (⟨Finite.natural 2, 1⟩ : Iter Nat).next.2.finite.len) ∧
    ((Finite.natural 2).len : Int) - ((1 : Nat) : Int) =
      ((⟨Finite.natural 2, 1⟩ : Iter Nat).size_hint.1 : Int) ∧
    (⟨Finite.natural 2, 2⟩ : Iter Nat).next = (.ok none, ⟨Finite.natural 2, 2⟩) ∧
    ((⟨Finite.natural 2, 2⟩ : Iter Nat).afterN 3).next.1 = .ok none := by
  obtain ⟨-, h2, h3, h4, h5⟩ := C9_cursor_invariant
  exact ⟨h2 Nat ⟨Finite.natural 2, 1⟩ (by decide),
    h3 Nat ⟨Finite.natural 2, 1⟩ (by decide),
    h4 Nat ⟨Finite.natural 2, 2⟩ (by decide),
    h5 Nat ⟨Finite.natural 2, 2⟩ 3 (by decide)⟩

/-- Claim C10: when the right child of a product is empty, every access,
at any index whatsoever, hits the division-by-zero panic of the
quotient computation, not the OutOfRange panic. -/
theorem C10_product_empty_right_div_panic :
    ∀ (A B : Type) (a : Finite A) (b : Finite B) (i : Nat), b.len = 0 →
      (Finite.product a b).index i = .error .divByZero ∧
      (Finite.product a b).index i ≠ .error .outOfRange := by
  intro A B a b i hb
  have heq : (Finite.product a b).index i = .error .divByZero := by
    simp [Finite.index, hb]
  refine ⟨heq, ?_⟩
  intro h
  rw [heq] at h
  injection h with h2
  exact absurd h2 (by decide)

/-- Witness for C10 at `Natural 3 × Empty`, index 7. -/
theorem C10_product_empty_right_div_panic_witness :
    (Finite.product (Finite.natural 3) (Finite.empty Nat)).index 7 = .error .divByZero ∧
    (Finite.product (Finite.natural 3) (Finite.empty Nat)).index 7 ≠ .error .outOfRange :=
  C10_product_empty_right_div_panic Nat Nat (Finite.natural 3) (Finite.empty Nat) 7 rfl

end RustyFeat
